import Mathlib

/-!
# Verification of the `EventEmitter` class (`src/index.ts`)

Shallow embedding of the TypeScript `EventEmitter` class.

Modelling decisions, each justified by the source:

* A listener function value is identified by a `Nat` (JS function identity;
  the emitter only compares listeners with `===` and invokes them).
* A scope object is identified by an `Option Nat` (`undefined` = `none`;
  the emitter only compares scopes with `===` and passes the scope as the
  receiver of the call).
* Event arguments are a `List Nat` of opaque values; `emit` passes them
  through unchanged.
* `__listeners : Map<keyof E, ListenerItem[]> | null` is modelled by
  `table : List (String × Nat)` (the `Map`, an insertion-ordered association
  list with unique keys) together with `arrays : List (List ListenerItem)`
  (the heap of array objects, addressed by index).  The indirection is
  needed because JS arrays are mutable objects with identity: `emit`
  iterates a *live* array object even after `off` has deleted the map entry
  that pointed to it, and `on` can allocate a *new* array for the same
  event name while an old one is still being iterated.  A `null` map is
  indistinguishable from an empty map for every method of the class, so
  both are modelled by the empty table.
* Each `listeners.push({listener, scope, once})` creates a fresh JS object;
  `regId` is a ghost tag reifying that object identity (a fresh number from
  the `nextReg` counter), used only to state "the same registration".
* A listener callback may re-enter the emitter.  Callback bodies are
  deeply embedded: `Action` is the alphabet of emitter calls a callback
  can make, and a behaviour `beh : Nat → List Action` assigns to every
  listener identity the calls its body performs when invoked.  The
  interpreter (`runActions` / `runAction` / `emitLoop`) is fuel-bounded
  because re-entrant emission need not terminate; exhausted fuel truncates
  the run, which is sound for the safety properties proved below.
* `on` is a reserved word in Lean, so the registration method is named
  `on'`; every other method keeps its source name.
-/

namespace EventEmitter

/-- `interface ListenerItem { listener; scope?; once }` plus the ghost
registration-identity tag `regId` (JS object identity of the pushed record). -/
structure ListenerItem where
  listener : Nat
  scope : Option Nat
  once : Bool
  regId : Nat
  deriving Repr, DecidableEq

/-- The mutable state of one `EventEmitter`, listener part:
`arrays` is the heap of `ListenerItem[]` array objects (addressed by index),
`table` is the `__listeners` map from event type to array address, and
`nextReg` is the ghost counter handing out fresh `regId` tags. -/
structure Core where
  arrays : List (List ListenerItem)
  table : List (String × Nat)
  nextReg : Nat
  deriving Repr, DecidableEq

/-- A newly constructed emitter: `__listeners = null`. -/
def initCore : Core := ⟨[], [], 0⟩

/-- `Map.get`: first (unique) binding of key `n`. -/
def tableGet (t : List (String × Nat)) (n : String) : Option Nat :=
  match t with
  | [] => none
  | (k, v) :: rest => if k = n then some v else tableGet rest n

/-- `Map.delete`: remove the (unique) binding of key `n`. -/
def tableDelete (t : List (String × Nat)) (n : String) : List (String × Nat) :=
  match t with
  | [] => []
  | (k, v) :: rest => if k = n then rest else (k, v) :: tableDelete rest n

/-- `__ensureListenerList(type)`: return the address of the array for `type`,
allocating a fresh empty array and `Map.set`ting it when absent. -/
def ensureListenerList (n : String) (s : Core) : Core × Nat :=
  match tableGet s.table n with
  | some aid => (s, aid)
  | none =>
    ({ s with
        arrays := s.arrays ++ [[]],
        table := s.table ++ [(n, s.arrays.length)] }, s.arrays.length)

/-- Shared body of `on'` and `once`: `listeners.push({listener, scope, once})`,
with a fresh ghost `regId`. -/
def addListener (n : String) (l : Nat) (sc : Option Nat) (onceFlag : Bool)
    (s : Core) : Core :=
  let p := ensureListenerList n s
  let s1 := p.1
  let aid := p.2
  { s1 with
      arrays := s1.arrays.set aid
        ((s1.arrays.getD aid []) ++ [⟨l, sc, onceFlag, s1.nextReg⟩]),
      nextReg := s1.nextReg + 1 }

/-- `on(type, listener, scope?)`. -/
def on' (n : String) (l : Nat) (sc : Option Nat) (s : Core) : Core :=
  addListener n l sc false s

/-- `once(type, listener, scope?)`. -/
def once (n : String) (l : Nat) (sc : Option Nat) (s : Core) : Core :=
  addListener n l sc true s

/-- The match test used by `off` and `hasListener`:
`event.listener === listener && (!scope || event.scope === scope)`. -/
def listenerMatches (l : Nat) (sc : Option Nat) (e : ListenerItem) : Bool :=
  e.listener == l && (sc.isNone || e.scope == sc)

/-- `off(type, listener, scope?)`: the source's backward loop with
`splice(i, 1)` removes every matching entry while preserving the order of
the rest, i.e. it filters the array in place; when the array becomes empty
the map key is deleted (the array object itself survives in the heap). -/
def off (n : String) (l : Nat) (sc : Option Nat) (s : Core) : Core :=
  match tableGet s.table n with
  | none => s
  | some aid =>
    let arr := (s.arrays.getD aid []).filter (fun e => !(listenerMatches l sc e))
    let s1 := { s with arrays := s.arrays.set aid arr }
    if arr.isEmpty then { s1 with table := tableDelete s1.table n } else s1

/-- `hasListener(type, listener, scope?)`. -/
def hasListener (n : String) (l : Nat) (sc : Option Nat) (s : Core) : Bool :=
  match tableGet s.table n with
  | none => false
  | some aid => (s.arrays.getD aid []).any (listenerMatches l sc)

/-- `hasListenerType(type)`: `!!listeners && listeners.length > 0`. -/
def hasListenerType (n : String) (s : Core) : Bool :=
  match tableGet s.table n with
  | none => false
  | some aid => !(s.arrays.getD aid []).isEmpty

/-- `hasListeners()`: `!!this.__listeners && this.__listeners.size > 0`. -/
def hasListeners (s : Core) : Bool := !s.table.isEmpty

/-- `removeAllListeners()`: `this.__listeners = new Map()`.  Old arrays are
detached but survive in the heap (an ongoing `emit` keeps iterating them). -/
def removeAllListeners (s : Core) : Core := { s with table := [] }

/-- `listeners.splice(i, 1)` on the array object at address `aid`. -/
def removeAt (aid i : Nat) (s : Core) : Core :=
  { s with arrays := s.arrays.set aid ((s.arrays.getD aid []).eraseIdx i) }

/-- The listener registrations currently reachable for event `n`
(the array the map binds `n` to, or nothing). -/
def listOf (s : Core) (n : String) : List ListenerItem :=
  match tableGet s.table n with
  | none => []
  | some aid => s.arrays.getD aid []

/-- One observed listener invocation: `event.listener.apply(event.scope, args)`,
together with the ghost identity of the registration that was fired and its
`once` flag. -/
structure Call where
  regId : Nat
  listener : Nat
  scope : Option Nat
  args : List Nat
  once : Bool
  deriving Repr, DecidableEq

/-- The emitter calls a listener body can perform (deep embedding of
callback bodies, for reasoning about re-entrancy). -/
inductive Action where
  | act_on (n : String) (l : Nat) (sc : Option Nat)
  | act_once (n : String) (l : Nat) (sc : Option Nat)
  | act_off (n : String) (l : Nat) (sc : Option Nat)
  | act_emit (n : String) (args : List Nat)
  | act_removeAll
  deriving Repr, DecidableEq

/-- The behaviour of a listener body that never re-enters the emitter. -/
def passiveBeh : Nat → List Action := fun _ => []

mutual

/-- Run the remaining calls of a callback body in sequence. -/
def runActions (beh : Nat → List Action) (fuel : Nat) (s : Core)
    (acts : List Action) : Core × List Call :=
  match acts with
  | [] => (s, [])
  | a :: rest =>
    if h : fuel = 0 then (s, []) else
    let p := runAction beh (fuel - 1) s a
    let q := runActions beh (fuel - 1) p.1 rest
    (q.1, p.2 ++ q.2)
termination_by fuel

/-- Run a single emitter call made by a callback body. -/
def runAction (beh : Nat → List Action) (fuel : Nat) (s : Core)
    (a : Action) : Core × List Call :=
  match a with
  | .act_on n l sc => ( on' n l sc s, [])
  | .act_once n l sc => (once n l sc s, [])
  | .act_off n l sc => (off n l sc s, [])
  | .act_removeAll => (removeAllListeners s, [])
  | .act_emit n args =>
    match tableGet s.table n with
    | none => (s, [])
    | some aid =>
      if h : fuel = 0 then (s, []) else
      emitLoop beh (fuel - 1) aid args 0 s
termination_by fuel

/-- The dispatch loop of `emit`:
`for (let i = 0; i < listeners.length; i++)` over the *live* array object at
address `aid`; a `once` entry is spliced out (`splice(i--, 1)`) strictly
before its listener is invoked.  `(s.arrays.getD aid []).drop i` is
`e :: _` exactly when `i < listeners.length`, with `e = listeners[i]`. -/
def emitLoop (beh : Nat → List Action) (fuel : Nat) (aid : Nat)
    (args : List Nat) (i : Nat) (s : Core) : Core × List Call :=
  match (s.arrays.getD aid []).drop i with
  | [] => (s, [])
  | e :: _ =>
    if h : fuel = 0 then (s, []) else
    let s1 := if e.once then removeAt aid i s else s
    let i2 := if e.once then i else i + 1
    let p := runActions beh (fuel - 1) s1 (beh e.listener)
    let q := emitLoop beh (fuel - 1) aid args i2 p.1
    (q.1, ⟨e.regId, e.listener, e.scope, args, e.once⟩ :: (p.2 ++ q.2))
termination_by fuel

end

/-- `emit(type, ...args)`: look the live array up and run the dispatch loop. -/
def emit (beh : Nat → List Action) (fuel : Nat) (n : String) (args : List Nat)
    (s : Core) : Core × List Call :=
  runAction beh fuel s (.act_emit n args)

/-- The full state of one emitter: listener part plus the
`__willBroadcastTo : Set<EventEmitter> | null` field (a `null` set is
indistinguishable from an empty one; target emitters are identified by
`Nat`; `Set` is modelled as an insertion-ordered duplicate-free list). -/
structure EmitterState where
  core : Core
  willBroadcastTo : List Nat
  deriving Repr, DecidableEq

/-- `broadcastTo(target)`: `Set.add`. -/
def broadcastTo (t : Nat) (s : EmitterState) : EmitterState :=
  if t ∈ s.willBroadcastTo then s
  else { s with willBroadcastTo := s.willBroadcastTo ++ [t] }

/-- `unBroadcastTo(target)`: `Set.delete`. -/
def unBroadcastTo (t : Nat) (s : EmitterState) : EmitterState :=
  { s with willBroadcastTo := s.willBroadcastTo.filter (fun x => x ≠ t) }

/-- `emit` on the full state.  The source of `emit` reads and writes only
`__listeners` (it never mentions `__willBroadcastTo` nor any other emitter),
so it acts on the `core` component alone. -/
def emitE (beh : Nat → List Action) (fuel : Nat) (n : String)
    (args : List Nat) (s : EmitterState) : EmitterState × List Call :=
  let p := emit beh fuel n args s.core
  (⟨p.1, s.willBroadcastTo⟩, p.2)

/-- The map keys are pairwise distinct (true of every JS `Map`). -/
def keysNodup (s : Core) : Prop := (s.table.map Prod.fst).Nodup

/-- Distinct keys are bound to distinct array objects. -/
def aidsNodup (s : Core) : Prop := (s.table.map Prod.snd).Nodup

/-- Every bound array address points into the heap. -/
def aidsInRange (s : Core) : Prop := ∀ p ∈ s.table, p.2 < s.arrays.length

/-- Structural well-formedness of the listener table, true of every state an
actual `EventEmitter` can reach (a JS `Map` has unique keys, and every value
it holds is a distinct allocated array). -/
def WFcore (s : Core) : Prop := keysNodup s ∧ aidsNodup s ∧ aidsInRange s

/-- Number of registration records carrying ghost tag `r` anywhere in the
heap (including arrays detached from the table). -/
def cnt (r : Nat) (s : Core) : Nat :=
  (s.arrays.map (fun arr => arr.countP (fun e => e.regId == r))).sum

/-- Heap invariant: every ghost tag occurs at most once (tags reify JS
object identity), and all tags are below the freshness counter.  It holds
in the initial state and is preserved by every operation. -/
def Inv (s : Core) : Prop :=
  (∀ r, cnt r s ≤ 1) ∧ (∀ r, cnt r s ≠ 0 → r < s.nextReg)

/-- Number of invocations of registration `r` as a `fireOnce` entry in a
call log. -/
def onceCallCount (r : Nat) (log : List Call) : Nat :=
  log.countP (fun c => c.regId == r && c.once)

/-- No call in the log fired registration `r` (whether `fireOnce` or not). -/
def noCallOf (r : Nat) (log : List Call) : Prop := ∀ c ∈ log, c.regId ≠ r

/-- The correctness predicate threaded through the interpreter: starting
from a state satisfying `Inv`, a run preserves `Inv`, never decreases the
freshness counter, fires no registration that is already gone from the
heap (a spliced-out `fireOnce` entry stays gone — tags are never reused),
fires each registration as a `fireOnce` entry at most once, and leaves a
fired `fireOnce` registration out of the heap when the run ends. -/
def Q (s s' : Core) (log : List Call) : Prop :=
  Inv s →
    Inv s' ∧ s.nextReg ≤ s'.nextReg
    ∧ (∀ r, r < s.nextReg → cnt r s = 0 → cnt r s' = 0 ∧ noCallOf r log)
    ∧ (∀ r, onceCallCount r log ≤ 1
        ∧ (onceCallCount r log ≠ 0 → cnt r s' = 0 ∧ r < s'.nextReg))

/-- The state after a sequence of `register` calls `on(n, l, sc)`, one for
each pair in `regs`, starting from `s` (plain method calls, no
re-entrancy involved in registration). -/
def registerAll (n : String) (regs : List (Nat × Option Nat)) (s : Core) : Core :=
  regs.foldl (fun t p => on' n p.1 p.2 t) s

/-- The registration records the `register` sequence `regs` creates, with
ghost `regId` tags counting from `k`. -/
def regItems (k : Nat) : List (Nat × Option Nat) → List ListenerItem
  | [] => []
  | (l, sc) :: rest => ⟨l, sc, false, k⟩ :: regItems (k + 1) rest

/-- The calls C3 expects `emit` to make: one per registration, in
registration order, each receiving exactly `args` and carrying its own
scope as receiver. -/
def expectedCalls (args : List Nat) (k : Nat) :
    List (Nat × Option Nat) → List Call
  | [] => []
  | (l, sc) :: rest => ⟨k, l, sc, args, false⟩ :: expectedCalls args (k + 1) rest

/-- Behaviour of the C1 failing input: listener `0` removes itself
(`this.off("e", listener0)`) from inside its own invocation; listener `1`
is passive. -/
def behSelfOff : Nat → List Action :=
  fun l => if l = 0 then [Action.act_off "e" 0 none] else []

theorem WFcore_init : WFcore initCore := by
  refine ⟨by simp [keysNodup, initCore], by simp [aidsNodup, initCore],
    by simp [aidsInRange, initCore]⟩

/- ### List helpers -/

theorem drop_succ_of_drop {α : Type} (l : List α) (i : Nat) (e : α) (t : List α)
    (h : l.drop i = e :: t) : l.drop (i + 1) = t := by
  have h2 := List.drop_drop 1 i l
  rw [h] at h2
  simpa using h2.symm

theorem getD_set_self {α : Type} : ∀ (L : List α) (i : Nat) (x d : α),
    i < L.length → (L.set i x).getD i d = x
  | [], _, _, _, h => absurd h (by simp)
  | _ :: _, 0, _, _, _ => rfl
  | _ :: t, i + 1, x, d, h => getD_set_self t i x d (by simpa using h)

theorem getD_set_ne {α : Type} : ∀ (L : List α) (i j : Nat) (x d : α),
    i ≠ j → (L.set i x).getD j d = L.getD j d
  | [], _, _, _, _, _ => rfl
  | _ :: _, 0, 0, _, _, h => absurd rfl h
  | _ :: _, 0, _ + 1, _, _, _ => rfl
  | _ :: _, _ + 1, 0, _, _, _ => rfl
  | _ :: t, i + 1, j + 1, x, d, h => getD_set_ne t i j x d (by omega)

theorem set_getD_self {α : Type} : ∀ (L : List α) (i : Nat) (d : α),
    L.set i (L.getD i d) = L
  | [], _, _ => rfl
  | _ :: _, 0, _ => rfl
  | a :: t, i + 1, d => congrArg (a :: ·) (set_getD_self t i d)

theorem getD_append_length {α : Type} : ∀ (l : List α) (x d : α),
    (l ++ [x]).getD l.length d = x
  | [], _, _ => rfl
  | _ :: t, x, d => getD_append_length t x d

theorem getD_oob {α : Type} : ∀ (L : List α) (i : Nat) (d : α),
    L.length ≤ i → L.getD i d = d
  | [], _, _, _ => rfl
  | _ :: _, 0, _, h => absurd h (by simp)
  | _ :: t, i + 1, d, h => getD_oob t i d (by simpa using h)

/- ### Table (JS `Map`) helpers -/

theorem tableGet_mem : ∀ (t : List (String × Nat)) (n : String) (v : Nat),
    tableGet t n = some v → (n, v) ∈ t
  | [], n, v, h => by simp [tableGet] at h
  | (k, w) :: rest, n, v, h => by
    by_cases hk : k = n
    · subst hk
      have hw : w = v := by simpa [tableGet] using h
      subst hw
      exact List.mem_cons_self _ _
    · simp only [tableGet, if_neg hk] at h
      exact List.mem_cons_of_mem _ (tableGet_mem rest n v h)

theorem tableGet_none_of_not_mem : ∀ (t : List (String × Nat)) (n : String),
    n ∉ t.map Prod.fst → tableGet t n = none
  | [], _, _ => rfl
  | (k, w) :: rest, n, h => by
    have hk : k ≠ n := by
      intro hkn
      exact h (by simp [hkn])
    simp only [tableGet, if_neg hk]
    exact tableGet_none_of_not_mem rest n (by
      intro hm
      exact h (by simp [hm]))

theorem tableGet_append_none : ∀ (t : List (String × Nat)) (n : String) (v : Nat),
    tableGet t n = none → tableGet (t ++ [(n, v)]) n = some v
  | [], n, v, _ => by simp [tableGet]
  | (k, w) :: rest, n, v, h => by
    by_cases hk : k = n
    · simp [tableGet, if_pos hk] at h
    · simp only [List.cons_append, tableGet, if_neg hk] at h ⊢
      exact tableGet_append_none rest n v h

theorem tableGet_delete_ne : ∀ (t : List (String × Nat)) (n m : String),
    m ≠ n → tableGet (tableDelete t n) m = tableGet t m
  | [], _, _, _ => rfl
  | (k, w) :: rest, n, m, h => by
    by_cases hk : k = n
    · subst hk
      have hkm : ¬(k = m) := fun hkm => h hkm.symm
      simp [tableDelete, tableGet, hkm]
    · simp only [tableDelete, if_neg hk, tableGet]
      by_cases hkm : k = m
      · simp [if_pos hkm]
      · simp only [if_neg hkm]
        exact tableGet_delete_ne rest n m h

theorem tableDelete_of_head (k : String) (w : Nat) (rest : List (String × Nat)) :
    tableDelete ((k, w) :: rest) k = rest := by
  simp [tableDelete]

theorem tableGet_delete_self : ∀ (t : List (String × Nat)) (n : String),
    (t.map Prod.fst).Nodup → tableGet (tableDelete t n) n = none
  | [], _, _ => rfl
  | (k, w) :: rest, n, hnd => by
    have hnd' := hnd
    rw [List.map_cons, List.nodup_cons] at hnd'
    by_cases hk : k = n
    · subst hk
      rw [tableDelete_of_head]
      exact tableGet_none_of_not_mem rest k hnd'.1
    · simp only [tableDelete, if_neg hk, tableGet, if_neg hk]
      exact tableGet_delete_self rest n hnd'.2

theorem tableGet_inj_snd : ∀ (t : List (String × Nat)), (t.map Prod.snd).Nodup →
    ∀ (m n : String) (a b : Nat), tableGet t m = some a → tableGet t n = some b →
    m ≠ n → a ≠ b
  | [], _, m, n, a, b, hm, hn, _ => by simp [tableGet] at hm
  | (k, w) :: rest, hnd, m, n, a, b, hm, hn, hmn => by
    rw [List.map_cons, List.nodup_cons] at hnd
    by_cases hkm : k = m
    · subst hkm
      have hw : w = a := by simpa [tableGet] using hm
      have hkn : k ≠ n := fun h => hmn h
      simp only [tableGet, if_neg hkn] at hn
      intro hab
      have hnb := tableGet_mem rest n b hn
      have hmem : b ∈ rest.map Prod.snd := List.mem_map.mpr ⟨(n, b), hnb, rfl⟩
      exact hnd.1 (by rw [hw.trans hab]; exact hmem)
    · by_cases hkn : k = n
      · subst hkn
        have hw : w = b := by simpa [tableGet] using hn
        simp only [tableGet, if_neg hkm] at hm
        intro hab
        have hma := tableGet_mem rest m a hm
        have hmem : a ∈ rest.map Prod.snd := List.mem_map.mpr ⟨(m, a), hma, rfl⟩
        exact hnd.1 (by rw [hw.trans hab.symm]; exact hmem)
      · simp only [tableGet, if_neg hkm] at hm
        simp only [tableGet, if_neg hkn] at hn
        exact tableGet_inj_snd rest hnd.2 m n a b hm hn hmn

/- ### `listOf` characterisations of the operations -/

theorem hasListenerType_eq (n : String) (s : Core) :
    hasListenerType n s = !(listOf s n).isEmpty := by
  unfold hasListenerType listOf
  cases tableGet s.table n <;> simp

theorem addListener_eq_found (n : String) (l : Nat) (sc : Option Nat) (b : Bool)
    (s : Core) (aid : Nat) (h : tableGet s.table n = some aid) :
    addListener n l sc b s =
      ⟨s.arrays.set aid ((s.arrays.getD aid [])
          ++ [({ listener := l, scope := sc, once := b, regId := s.nextReg } : ListenerItem)]),
       s.table, s.nextReg + 1⟩ := by
  unfold addListener ensureListenerList
  rw [h]

theorem addListener_eq_new (n : String) (l : Nat) (sc : Option Nat) (b : Bool)
    (s : Core) (h : tableGet s.table n = none) :
    addListener n l sc b s =
      ⟨(s.arrays ++ [[]]).set s.arrays.length
          (((s.arrays ++ [[]]).getD s.arrays.length [])
            ++ [({ listener := l, scope := sc, once := b, regId := s.nextReg } : ListenerItem)]),
       s.table ++ [(n, s.arrays.length)], s.nextReg + 1⟩ := by
  unfold addListener ensureListenerList
  rw [h]

theorem listOf_addListener (n : String) (l : Nat) (sc : Option Nat) (b : Bool)
    (s : Core) (hr : aidsInRange s) :
    listOf (addListener n l sc b s) n = listOf s n ++ [⟨l, sc, b, s.nextReg⟩] := by
  cases h : tableGet s.table n with
  | some aid =>
    have haid : aid < s.arrays.length := hr _ (tableGet_mem _ _ _ h)
    rw [addListener_eq_found n l sc b s aid h]
    unfold listOf
    simp only [h]
    exact getD_set_self _ _ _ _ haid
  | none =>
    rw [addListener_eq_new n l sc b s h]
    unfold listOf
    simp only [h, tableGet_append_none s.table n s.arrays.length h]
    rw [getD_set_self _ _ _ _ (by simp), getD_append_length]

theorem listOf_ne_nil_in_range (s : Core) (n : String) (aid : Nat)
    (h : tableGet s.table n = some aid) (hne : s.arrays.getD aid [] ≠ []) :
    aid < s.arrays.length := by
  by_contra hge
  rw [getD_oob s.arrays aid [] (by omega)] at hne
  exact hne rfl

theorem off_eq_none (n : String) (l : Nat) (sc : Option Nat) (s : Core)
    (h : tableGet s.table n = none) : off n l sc s = s := by
  unfold off
  rw [h]

theorem off_eq_found (n : String) (l : Nat) (sc : Option Nat) (s : Core)
    (aid : Nat) (h : tableGet s.table n = some aid) :
    off n l sc s =
      (if ((s.arrays.getD aid []).filter
            (fun e => !(listenerMatches l sc e))).isEmpty then
        (⟨s.arrays.set aid ((s.arrays.getD aid []).filter
            (fun e => !(listenerMatches l sc e))),
          tableDelete s.table n, s.nextReg⟩ : Core)
      else
        ⟨s.arrays.set aid ((s.arrays.getD aid []).filter
            (fun e => !(listenerMatches l sc e))),
          s.table, s.nextReg⟩) := by
  unfold off
  rw [h]

theorem off_listOf (n : String) (l : Nat) (sc : Option Nat) (s : Core)
    (hk : keysNodup s) :
    listOf (off n l sc s) n
      = (listOf s n).filter (fun e => !(listenerMatches l sc e)) := by
  cases h : tableGet s.table n with
  | none =>
    rw [off_eq_none n l sc s h]
    simp [listOf, h]
  | some aid =>
    rw [off_eq_found n l sc s aid h]
    by_cases he : ((s.arrays.getD aid []).filter
        (fun e => !(listenerMatches l sc e))).isEmpty
    · rw [if_pos he]
      have hflt : (listOf s n).filter (fun e => !(listenerMatches l sc e)) = [] := by
        unfold listOf
        rw [h]
        exact List.isEmpty_iff.mp he
      rw [hflt]
      unfold listOf
      rw [show (⟨s.arrays.set aid ((s.arrays.getD aid []).filter
            (fun e => !(listenerMatches l sc e))),
          tableDelete s.table n, s.nextReg⟩ : Core).table = tableDelete s.table n
        from rfl]
      rw [tableGet_delete_self _ _ hk]
    · rw [if_neg he]
      have hrange : aid < s.arrays.length := by
        apply listOf_ne_nil_in_range s n aid h
        intro hnil
        rw [hnil] at he
        simp at he
      unfold listOf
      simp only [h]
      exact getD_set_self _ _ _ _ hrange

theorem off_listOf_ne (n m : String) (l : Nat) (sc : Option Nat) (s : Core)
    (hwf : WFcore s) (hmn : m ≠ n) :
    listOf (off n l sc s) m = listOf s m := by
  obtain ⟨hk, hs, hr⟩ := hwf
  cases h : tableGet s.table n with
  | none => rw [off_eq_none n l sc s h]
  | some aid =>
    rw [off_eq_found n l sc s aid h]
    have hget : ∀ (t2 : Core), t2.arrays = s.arrays.set aid
        ((s.arrays.getD aid []).filter (fun e => !(listenerMatches l sc e))) →
        tableGet t2.table m = tableGet s.table m →
        listOf t2 m = listOf s m := by
      intro t2 ha ht
      unfold listOf
      rw [ht, ha]
      cases hm : tableGet s.table m with
      | none => rfl
      | some aid2 =>
        have haid : aid2 ≠ aid := tableGet_inj_snd s.table hs m n aid2 aid hm h hmn
        exact getD_set_ne _ _ _ _ _ (fun hh => haid hh.symm)
    by_cases he : ((s.arrays.getD aid []).filter
        (fun e => !(listenerMatches l sc e))).isEmpty
    · rw [if_pos he]
      exact hget _ rfl (tableGet_delete_ne _ _ _ hmn)
    · rw [if_neg he]
      exact hget _ rfl rfl

theorem filter_self_idem {α : Type} (p : α → Bool) (l : List α) :
    (l.filter p).filter p = l.filter p := by
  rw [List.filter_filter]
  simp

/- ### Claim theorems -/

/-- C1 (evaluation of the code at the failing input): two listeners `0` and
`1` are registered for `"e"` via `on`; during `emit("e")` listener `0`
removes itself with `off("e", 0)`.  The code then invokes only listener `0`
— listener `1` is skipped in that emission, because the `splice` shifts it
to index 0 while the loop still advances to index 1 — and listener `1`
fires alone on the subsequent `emit("e")`.  The claim instead demands that
listener `1` fire exactly once in the first emission. -/
theorem c1_self_off_skips_neighbor :
    (emit behSelfOff 10 "e" [] ( on' "e" 1 none ( on' "e" 0 none initCore))).2
      = [{ regId := 0, listener := 0, scope := none, args := [], once := false }]
    ∧ (emit behSelfOff 10 "e" []
        (emit behSelfOff 10 "e" [] ( on' "e" 1 none ( on' "e" 0 none initCore))).1).2
      = [{ regId := 1, listener := 1, scope := none, args := [], once := false }] := by
  constructor <;>
    simp [emit, runAction, runActions, emitLoop, on', off, addListener,
      ensureListenerList, tableGet, tableDelete, removeAt, initCore, behSelfOff,
      listenerMatches]

/-- C4: after `once(n, l)` with nothing else interleaved, the first
`emit(n)` fires the listener exactly once, a second `emit(n)` fires
nothing, the registration is gone from the sequence after the first
emission, and — because the registration is removed strictly *before* the
callback is invoked — even a callback that re-entrantly emits `n` from
inside its own invocation observes no registration and cannot re-trigger
itself. -/
theorem c4_registerOnce_fires_once (n : String) (l : Nat) :
    (emit passiveBeh 4 n [] (once n l none initCore)).2
      = [{ regId := 0, listener := l, scope := none, args := [], once := true }]
    ∧ (emit passiveBeh 4 n [] (emit passiveBeh 4 n [] (once n l none initCore)).1).2 = []
    ∧ listOf (emit passiveBeh 4 n [] (once n l none initCore)).1 n = []
    ∧ (emit (fun _ => [Action.act_emit n []]) 6 n [] (once n l none initCore)).2
      = [{ regId := 0, listener := l, scope := none, args := [], once := true }] := by
  refine ⟨?_, ?_, ?_, ?_⟩ <;>
    simp [emit, runAction, runActions, emitLoop, once, addListener,
      ensureListenerList, tableGet, removeAt, initCore, passiveBeh, listOf]

/-- C5: `off(n, l, sc)` removes exactly the entries whose callback is
identical to `l` and (when `sc` is provided) whose scope is identical to
`sc`; with `sc` omitted the scope is not checked.  Moreover, in the
scope-mismatch scenario the removal is a no-op and a later `emit` still
invokes the callback with its original scope as receiver. -/
theorem c5_unregister_matching (s : Core) (n : String) (cb l : Nat)
    (sc : Option Nat) (sA sB : Nat) (args : List Nat)
    (hk : keysNodup s) (hAB : sA ≠ sB) :
    listOf (off n l sc s) n = (listOf s n).filter (fun e => !(listenerMatches l sc e))
    ∧ (emit passiveBeh 3 n args (off n cb (some sB) ( on' n cb (some sA) initCore))).2
      = [{ regId := 0, listener := cb, scope := some sA, args := args, once := false }] := by
  refine ⟨off_listOf n l sc s hk, ?_⟩
  simp [emit, runAction, runActions, emitLoop, off, on', addListener,
    ensureListenerList, tableGet, tableDelete, initCore, passiveBeh,
    listenerMatches, hAB]

theorem c5_unregister_matching_witness :
    listOf (off "e" 1 none initCore) "e"
      = (listOf initCore "e").filter (fun e => !(listenerMatches 1 none e))
    ∧ (emit passiveBeh 3 "e" [7] (off "e" 1 (some 2) ( on' "e" 1 (some 1) initCore))).2
      = [{ regId := 0, listener := 1, scope := some 1, args := [7], once := false }] :=
  c5_unregister_matching initCore "e" 1 1 none 1 2 [7] (by unfold keysNodup; decide) (by decide)

/-- C6: on every well-formed state, `hasListenerType(n)` is true exactly
when at least one registration for `n` exists; it is true immediately
after `on`/`once` for `n`, and after `off` it reports exactly whether any
entry survived the removal (false once the last registration for `n` is
removed) — regardless of whether an emptied sequence was deleted from the
table by `off` or left behind empty by `emit`. -/
theorem c6_hasListenerType_iff (s : Core) (n : String) (l : Nat)
    (sc : Option Nat) (hwf : WFcore s) :
    (hasListenerType n s = !(listOf s n).isEmpty)
    ∧ hasListenerType n ( on' n l sc s) = true
    ∧ hasListenerType n (once n l sc s) = true
    ∧ hasListenerType n (off n l sc s)
      = !((listOf s n).filter (fun e => !(listenerMatches l sc e))).isEmpty := by
  obtain ⟨hk, hs, hr⟩ := hwf
  refine ⟨hasListenerType_eq n s, ?_, ?_, ?_⟩
  · unfold on'
    rw [hasListenerType_eq, listOf_addListener n l sc false s hr]
    simp
  · unfold once
    rw [hasListenerType_eq, listOf_addListener n l sc true s hr]
    simp
  · rw [hasListenerType_eq, off_listOf n l sc s hk]

theorem c6_hasListenerType_iff_witness :
    (hasListenerType "e" initCore = !(listOf initCore "e").isEmpty)
    ∧ hasListenerType "e" ( on' "e" 0 none initCore) = true
    ∧ hasListenerType "e" (once "e" 0 none initCore) = true
    ∧ hasListenerType "e" (off "e" 0 none initCore)
      = !((listOf initCore "e").filter (fun e => !(listenerMatches 0 none e))).isEmpty :=
  c6_hasListenerType_iff initCore "e" 0 none WFcore_init

/-- C7 counterexample: the claim "unregister with a callback that matches
no registration leaves the state unchanged" fails.  Reachable state: after
`once("e", 0)` and one `emit("e")` the table still maps `"e"` to the (now
empty) live array.  `off("e", 1)` matches no registration, yet it deletes
the `"e"` key from the table, changing the state (observably:
`hasListeners()` flips from true to false). -/
theorem c7_counterexample :
    (emit passiveBeh 3 "e" [] (once "e" 0 none initCore)).1
      = (⟨[[]], [("e", 0)], 1⟩ : Core)
    ∧ off "e" 1 none (⟨[[]], [("e", 0)], 1⟩ : Core) ≠ (⟨[[]], [("e", 0)], 1⟩ : Core)
    ∧ hasListeners (⟨[[]], [("e", 0)], 1⟩ : Core) = true
    ∧ hasListeners (off "e" 1 none (⟨[[]], [("e", 0)], 1⟩ : Core)) = false := by
  refine ⟨?_, by decide, by decide, by decide⟩
  simp [emit, runAction, runActions, emitLoop, once, addListener,
    ensureListenerList, tableGet, removeAt, initCore, passiveBeh]

/-- C7 (amended): calling `off`, `emit`, or `hasListener`/`hasListenerType`
with an event name that has no entry in the table is never an error —
`off` leaves the state unchanged, `emit` dispatches nothing, the queries
return false; and `off` with a callback/scope matching no registration
leaves every event's registration sequence unchanged (though it may delete
a table key whose sequence was already empty). -/
theorem c7_unknown_and_unmatched (s : Core) (n m : String) (l : Nat)
    (sc : Option Nat) (beh : Nat → List Action) (fuel : Nat) (args : List Nat)
    (hwf : WFcore s)
    (hn : tableGet s.table n = none)
    (hnm : ∀ e ∈ listOf s m, listenerMatches l sc e = false) :
    off n l sc s = s
    ∧ emit beh fuel n args s = (s, [])
    ∧ hasListener n l sc s = false
    ∧ hasListenerType n s = false
    ∧ (∀ k, listOf (off m l sc s) k = listOf s k) := by
  refine ⟨off_eq_none n l sc s hn, ?_, ?_, ?_, ?_⟩
  · unfold emit
    simp [runAction, hn]
  · simp [hasListener, hn]
  · simp [hasListenerType, hn]
  · intro k
    by_cases hkm : k = m
    · subst hkm
      rw [off_listOf k l sc s hwf.1]
      apply List.filter_eq_self.mpr
      intro e he
      simp [hnm e he]
    · exact off_listOf_ne m k l sc s hwf hkm

theorem c7_unknown_and_unmatched_witness :
    off "a" 0 none initCore = initCore
    ∧ emit passiveBeh 5 "a" [] initCore = (initCore, [])
    ∧ hasListener "a" 0 none initCore = false
    ∧ hasListenerType "a" initCore = false
    ∧ (∀ k, listOf (off "b" 0 none initCore) k = listOf initCore k) :=
  c7_unknown_and_unmatched initCore "a" "b" 0 none passiveBeh 5 [] WFcore_init
    (by decide) (by simp [listOf, initCore, tableGet])

/-- C8: after `removeAllListeners()` the table is empty — a subsequent
`emit` of any event name invokes no listener and returns the state
unchanged, and `hasListeners()` is false. -/
theorem c8_removeAll_empties (s : Core) (beh : Nat → List Action) (fuel : Nat)
    (n : String) (args : List Nat) :
    emit beh fuel n args (removeAllListeners s) = (removeAllListeners s, [])
    ∧ hasListeners (removeAllListeners s) = false := by
  constructor
  · unfold emit
    simp [runAction, removeAllListeners, tableGet]
  · rfl

/-- C9: `broadcastTo(target)` and `unBroadcastTo(target)` only record the
relay target: they leave the listener table untouched, and `emit` neither
reads nor writes the recorded target set — it dispatches exactly the same
calls with exactly the same effect on the listener table whether or not a
target is recorded, and never forwards anything to the recorded targets
(the source of `emit` does not mention `__willBroadcastTo` at all). -/
theorem c9_broadcast_frame (t : Nat) (s : EmitterState) (beh : Nat → List Action)
    (fuel : Nat) (n : String) (args : List Nat) :
    (broadcastTo t s).core = s.core
    ∧ (unBroadcastTo t s).core = s.core
    ∧ (emitE beh fuel n args (broadcastTo t s)).2 = (emitE beh fuel n args s).2
    ∧ (emitE beh fuel n args (broadcastTo t s)).1.core
        = (emitE beh fuel n args s).1.core
    ∧ (emitE beh fuel n args (unBroadcastTo t s)).2 = (emitE beh fuel n args s).2
    ∧ (emitE beh fuel n args (unBroadcastTo t s)).1.core
        = (emitE beh fuel n args s).1.core
    ∧ (emitE beh fuel n args s).1.willBroadcastTo = s.willBroadcastTo := by
  by_cases h : t ∈ s.willBroadcastTo <;>
    simp [broadcastTo, unBroadcastTo, emitE, h]

/-- C10: `off` is idempotent — a single call already removes every
matching entry, so repeating it with the same arguments changes nothing. -/
theorem c10_unregister_idempotent (s : Core) (n : String) (l : Nat)
    (sc : Option Nat) (hk : keysNodup s) :
    off n l sc (off n l sc s) = off n l sc s := by
  cases h : tableGet s.table n with
  | none => rw [off_eq_none n l sc s h, off_eq_none n l sc s h]
  | some aid =>
    rw [off_eq_found n l sc s aid h]
    by_cases he : ((s.arrays.getD aid []).filter
        (fun e => !(listenerMatches l sc e))).isEmpty
    · rw [if_pos he]
      apply off_eq_none
      exact tableGet_delete_self _ _ hk
    · rw [if_neg he]
      have hrange : aid < s.arrays.length := by
        apply listOf_ne_nil_in_range s n aid h
        intro hnil
        rw [hnil] at he
        simp at he
      have hget2 : tableGet
          (⟨s.arrays.set aid ((s.arrays.getD aid []).filter
              (fun e => !(listenerMatches l sc e))), s.table, s.nextReg⟩ : Core).table n
          = some aid := h
      rw [off_eq_found n l sc _ aid hget2]
      have harr2 : (⟨s.arrays.set aid ((s.arrays.getD aid []).filter
            (fun e => !(listenerMatches l sc e))), s.table, s.nextReg⟩ : Core).arrays.getD aid []
          = (s.arrays.getD aid []).filter (fun e => !(listenerMatches l sc e)) :=
        getD_set_self _ _ _ _ (by simpa using hrange)
      rw [harr2, filter_self_idem, if_neg he]
      simp [List.set_set]

theorem c10_unregister_idempotent_witness :
    off "e" 0 none (off "e" 0 none ( on' "e" 0 none initCore))
      = off "e" 0 none ( on' "e" 0 none initCore) :=
  c10_unregister_idempotent ( on' "e" 0 none initCore) "e" 0 none (by unfold keysNodup; decide)

/- ### C3: registration order and dispatch -/

theorem regItems_once_false (k : Nat) (regs : List (Nat × Option Nat)) :
    ∀ e ∈ regItems k regs, e.once = false := by
  induction regs generalizing k with
  | nil => intro e he; simp [regItems] at he
  | cons r rest ih =>
    intro e he
    obtain ⟨l, sc⟩ := r
    rw [regItems] at he
    rcases List.mem_cons.mp he with h | h
    · rw [h]
    · exact ih (k + 1) e h

theorem regItems_length (k : Nat) (regs : List (Nat × Option Nat)) :
    (regItems k regs).length = regs.length := by
  induction regs generalizing k with
  | nil => rfl
  | cons r rest ih =>
    obtain ⟨l, sc⟩ := r
    rw [regItems]
    simp [ih (k + 1)]

theorem regItems_map_call (args : List Nat) (k : Nat)
    (regs : List (Nat × Option Nat)) :
    (regItems k regs).map
        (fun e => (⟨e.regId, e.listener, e.scope, args, e.once⟩ : Call))
      = expectedCalls args k regs := by
  induction regs generalizing k with
  | nil => rfl
  | cons r rest ih =>
    obtain ⟨l, sc⟩ := r
    rw [regItems, expectedCalls]
    simp [ih (k + 1)]

theorem registerAll_cons (n : String) (r : Nat × Option Nat)
    (regs : List (Nat × Option Nat)) (s : Core) :
    registerAll n (r :: regs) s = registerAll n regs ( on' n r.1 r.2 s) := rfl

theorem registerAll_single_array (n : String) :
    ∀ (regs : List (Nat × Option Nat)) (arr : List ListenerItem) (k : Nat),
    registerAll n regs ⟨[arr], [(n, 0)], k⟩
      = ⟨[arr ++ regItems k regs], [(n, 0)], k + regs.length⟩
  | [], arr, k => by simp [registerAll, regItems]
  | (l, sc) :: rest, arr, k => by
    rw [registerAll_cons]
    have hon : on' n l sc ⟨[arr], [(n, 0)], k⟩
        = ⟨[arr ++ [⟨l, sc, false, k⟩]], [(n, 0)], k + 1⟩ := by
      rw [on', addListener_eq_found n l sc false _ 0 (by simp [tableGet])]
      simp
    rw [hon, registerAll_single_array n rest
      (arr ++ [({ listener := l, scope := sc, once := false, regId := k } : ListenerItem)]) (k + 1)]
    rw [regItems]
    simp [List.append_assoc]
    omega

theorem registerAll_init (n : String) (l : Nat) (sc : Option Nat)
    (rest : List (Nat × Option Nat)) :
    registerAll n ((l, sc) :: rest) initCore
      = ⟨[regItems 0 ((l, sc) :: rest)], [(n, 0)], rest.length + 1⟩ := by
  rw [registerAll_cons]
  have hon : on' n l sc initCore = ⟨[[⟨l, sc, false, 0⟩]], [(n, 0)], 1⟩ := by
    rw [on', addListener_eq_new n l sc false initCore (by rfl)]
    simp [initCore]
  rw [hon]
  have := registerAll_single_array n rest [⟨l, sc, false, 0⟩] 1
  rw [this, regItems]
  simp
  omega

theorem emitLoop_passive (beh : Nat → List Action) (aid : Nat) (args : List Nat) :
    ∀ (fuel i : Nat) (s : Core),
    (∀ e ∈ s.arrays.getD aid [], beh e.listener = [] ∧ e.once = false) →
    (s.arrays.getD aid []).length ≤ i + fuel →
    emitLoop beh fuel aid args i s
      = (s, ((s.arrays.getD aid []).drop i).map
          (fun e => ⟨e.regId, e.listener, e.scope, args, e.once⟩)) := by
  intro fuel
  induction fuel with
  | zero =>
    intro i s hpass hlen
    have hnil : (s.arrays.getD aid []).drop i = [] :=
      List.drop_eq_nil_of_le (by omega)
    rw [emitLoop, hnil]
    simp [hnil]
  | succ f ih =>
    intro i s hpass hlen
    cases hd : (s.arrays.getD aid []).drop i with
    | nil =>
      rw [emitLoop, hd]
      simp [hd]
    | cons e tail =>
      have he : e ∈ s.arrays.getD aid [] :=
        List.mem_of_mem_drop (hd ▸ List.mem_cons_self e tail)
      obtain ⟨hbeh, honce⟩ := hpass e he
      have hdrop : (s.arrays.getD aid []).drop (i + 1) = tail :=
        drop_succ_of_drop _ _ _ _ hd
      have hlen2 : (s.arrays.getD aid []).length ≤ (i + 1) + f := by omega
      have hrun : runActions beh f s (beh e.listener) = (s, []) := by
        rw [hbeh]
        simp [runActions]
      rw [emitLoop, hd]
      simp only [dif_neg (show ¬(f + 1 = 0) from by omega), honce, Bool.false_eq_true,
        if_false, Nat.add_sub_cancel, hrun]
      rw [ih (i + 1) s hpass hlen2, hdrop]
      simp [honce]

theorem regItems_passive (k : Nat) (regs : List (Nat × Option Nat)) :
    ∀ e ∈ regItems k regs, passiveBeh e.listener = [] ∧ e.once = false :=
  fun e he => ⟨rfl, regItems_once_false k regs e he⟩

/-- C3: for every sequence of `register(n, cb, scope)` calls followed by
`emit(n, args)`, the listeners fire exactly once per registration
(duplicate callback/scope registrations each fire), in registration order,
each receiving exactly `args`, with its own registered scope as invocation
receiver (`none` when omitted). -/
theorem c3_register_emit_order (n : String) (args : List Nat)
    (regs : List (Nat × Option Nat)) (fuel : Nat)
    (hf : regs.length + 1 ≤ fuel) :
    (emit passiveBeh fuel n args (registerAll n regs initCore)).2
      = expectedCalls args 0 regs := by
  rcases regs with _ | ⟨⟨l, sc⟩, rest⟩
  · unfold emit
    simp [runAction, registerAll, initCore, tableGet, expectedCalls]
  · rw [registerAll_init n l sc rest]
    rcases fuel with _ | f
    · omega
    have hget : tableGet ([(n, 0)] : List (String × Nat)) n = some 0 := by
      simp [tableGet]
    unfold emit
    rw [runAction]
    simp only [hget]
    rw [dif_neg (by omega : ¬(f + 1 = 0))]
    simp only [Nat.add_sub_cancel]
    rw [emitLoop_passive passiveBeh 0 args f 0
      ⟨[regItems 0 ((l, sc) :: rest)], [(n, 0)], rest.length + 1⟩
      (fun e he => regItems_passive 0 ((l, sc) :: rest) e (by simpa using he))
      (by simp [regItems_length] at hf ⊢; omega)]
    simp [regItems_map_call]

theorem c3_register_emit_order_witness :
    (emit passiveBeh 3 "e" [1, 2] (registerAll "e" [(5, none), (5, none)] initCore)).2
      = expectedCalls [1, 2] 0 [(5, none), (5, none)] :=
  c3_register_emit_order "e" [1, 2] [(5, none), (5, none)] 3 (by decide)

/- ### C2: counting ghost tags -/

theorem countP_filter_le {α : Type} (p q : α → Bool) :
    ∀ l : List α, (l.filter q).countP p ≤ l.countP p
  | [] => Nat.le_refl _
  | a :: l => by
    rw [List.countP_cons]
    by_cases hq : q a
    · rw [List.filter_cons_of_pos hq, List.countP_cons]
      have := countP_filter_le p q l
      omega
    · rw [List.filter_cons_of_neg hq]
      have := countP_filter_le p q l
      omega

theorem sum_countP_set (p : ListenerItem → Bool) :
    ∀ (L : List (List ListenerItem)) (i : Nat) (x : List ListenerItem),
    i < L.length →
    ((L.set i x).map (fun arr => arr.countP p)).sum + (L.getD i []).countP p
      = (L.map (fun arr => arr.countP p)).sum + x.countP p
  | [], i, x, h => absurd h (by simp)
  | a :: L, 0, x, _ => by simp [List.getD_cons_zero]; omega
  | a :: L, i + 1, x, h => by
    have := sum_countP_set p L i x (by simpa using h)
    simp only [List.set_cons_succ, List.map_cons, List.sum_cons, List.getD_cons_succ]
    omega

theorem countP_getD_le_sum (p : ListenerItem → Bool) :
    ∀ (L : List (List ListenerItem)) (i : Nat),
    (L.getD i []).countP p ≤ (L.map (fun arr => arr.countP p)).sum
  | [], i => by simp [List.getD]
  | a :: L, 0 => by simp
  | a :: L, i + 1 => by
    have := countP_getD_le_sum p L i
    simp only [List.getD_cons_succ, List.map_cons, List.sum_cons]
    omega

theorem countP_eraseIdx_drop {α : Type} (p : α → Bool) :
    ∀ (l : List α) (i : Nat) (e : α) (t : List α),
    l.drop i = e :: t →
    l.countP p = (l.eraseIdx i).countP p + (if p e then 1 else 0)
  | [], i, e, t, h => by simp at h
  | a :: l, 0, e, t, h => by
    rw [List.drop_zero] at h
    cases h
    rw [List.eraseIdx_zero, List.tail_cons, List.countP_cons]
  | a :: l, i + 1, e, t, h => by
    have h' : l.drop i = e :: t := by simpa using h
    have := countP_eraseIdx_drop p l i e t h'
    rw [show (a :: l).eraseIdx (i + 1) = a :: l.eraseIdx i from rfl]
    rw [List.countP_cons, List.countP_cons]
    omega

/- ### cnt across each operation -/

theorem cnt_ensure (n : String) (s : Core) (r : Nat) :
    cnt r (ensureListenerList n s).1 = cnt r s := by
  unfold ensureListenerList
  cases tableGet s.table n with
  | some aid => rfl
  | none => simp [cnt]

theorem nextReg_ensure (n : String) (s : Core) :
    (ensureListenerList n s).1.nextReg = s.nextReg := by
  unfold ensureListenerList
  cases tableGet s.table n with
  | some aid => rfl
  | none => rfl

theorem cnt_core_mk (r : Nat) (A : List (List ListenerItem))
    (t : List (String × Nat)) (k : Nat) :
    cnt r (⟨A, t, k⟩ : Core)
      = (A.map (fun arr => arr.countP (fun e => e.regId == r))).sum := rfl

theorem nextReg_addListener (n : String) (l : Nat) (sc : Option Nat) (b : Bool)
    (s : Core) : (addListener n l sc b s).nextReg = s.nextReg + 1 := by
  simp [addListener, nextReg_ensure]

theorem sum_countP_set_append (p : ListenerItem → Bool)
    (L : List (List ListenerItem)) (aid : Nat) (x : ListenerItem) :
    ((L.set aid ((L.getD aid []) ++ [x])).map (fun arr => arr.countP p)).sum
      ≤ (L.map (fun arr => arr.countP p)).sum + (if p x then 1 else 0) := by
  by_cases hrange : aid < L.length
  · have hset := sum_countP_set p L aid ((L.getD aid []) ++ [x]) hrange
    have happ : ((L.getD aid []) ++ [x]).countP p
        = (L.getD aid []).countP p + (if p x then 1 else 0) := by
      rw [List.countP_append]
      by_cases hx : p x <;> simp [hx, List.countP_cons]
    omega
  · rw [List.set_eq_of_length_le (by omega)]
    omega

theorem cnt_addListener_le (n : String) (l : Nat) (sc : Option Nat) (b : Bool)
    (s : Core) (r : Nat) :
    cnt r (addListener n l sc b s)
      ≤ cnt r s + (if s.nextReg = r then 1 else 0) := by
  cases h : tableGet s.table n with
  | some aid =>
    rw [addListener_eq_found n l sc b s aid h, cnt_core_mk]
    have key := sum_countP_set_append (fun e => e.regId == r) s.arrays aid
      ({ listener := l, scope := sc, once := b, regId := s.nextReg } : ListenerItem)
    simp only [beq_iff_eq] at key
    unfold cnt
    omega
  | none =>
    rw [addListener_eq_new n l sc b s h, cnt_core_mk]
    have key := sum_countP_set_append (fun e => e.regId == r) (s.arrays ++ [[]])
      s.arrays.length
      ({ listener := l, scope := sc, once := b, regId := s.nextReg } : ListenerItem)
    simp only [beq_iff_eq] at key
    rw [List.map_append, List.sum_append] at key
    simp only [List.map_cons, List.map_nil, List.sum_cons, List.sum_nil,
      List.countP_nil, Nat.add_zero] at key
    unfold cnt
    omega

theorem nextReg_off (n : String) (l : Nat) (sc : Option Nat) (s : Core) :
    (off n l sc s).nextReg = s.nextReg := by
  cases h : tableGet s.table n with
  | none => rw [off_eq_none n l sc s h]
  | some aid =>
    rw [off_eq_found n l sc s aid h]
    by_cases he : ((s.arrays.getD aid []).filter
        (fun e => !(listenerMatches l sc e))).isEmpty
    · rw [if_pos he]
    · rw [if_neg he]

theorem cnt_off_le (n : String) (l : Nat) (sc : Option Nat) (s : Core) (r : Nat) :
    cnt r (off n l sc s) ≤ cnt r s := by
  cases h : tableGet s.table n with
  | none => rw [off_eq_none n l sc s h]
  | some aid =>
    rw [off_eq_found n l sc s aid h]
    have hbody : ((s.arrays.set aid ((s.arrays.getD aid []).filter
          (fun e => !(listenerMatches l sc e)))).map
          (fun arr => arr.countP (fun e => e.regId == r))).sum
        ≤ cnt r s := by
      by_cases hrange : aid < s.arrays.length
      · have hset := sum_countP_set (fun e => e.regId == r) s.arrays aid
          ((s.arrays.getD aid []).filter (fun e => !(listenerMatches l sc e))) hrange
        have hfl := countP_filter_le (fun e => e.regId == r)
          (fun e => !(listenerMatches l sc e)) (s.arrays.getD aid [])
        unfold cnt
        omega
      · rw [List.set_eq_of_length_le (by omega)]
        unfold cnt
        omega
    by_cases he : ((s.arrays.getD aid []).filter
        (fun e => !(listenerMatches l sc e))).isEmpty
    · rw [if_pos he, cnt_core_mk]
      exact hbody
    · rw [if_neg he, cnt_core_mk]
      exact hbody

theorem removeAt_eq (aid i : Nat) (s : Core) :
    removeAt aid i s
      = ⟨s.arrays.set aid ((s.arrays.getD aid []).eraseIdx i),
         s.table, s.nextReg⟩ := rfl

theorem cnt_removeAt (aid i : Nat) (s : Core) (e : ListenerItem)
    (tail : List ListenerItem)
    (hd : (s.arrays.getD aid []).drop i = e :: tail) (r : Nat) :
    cnt r (removeAt aid i s) + (if e.regId = r then 1 else 0) = cnt r s := by
  have hne : s.arrays.getD aid [] ≠ [] := by
    intro hnil
    rw [hnil] at hd
    simp at hd
  have hrange : aid < s.arrays.length := by
    by_contra hge
    rw [getD_oob s.arrays aid [] (by omega)] at hne
    exact hne rfl
  have hset := sum_countP_set (fun e2 => e2.regId == r) s.arrays aid
    ((s.arrays.getD aid []).eraseIdx i) hrange
  have hcp := countP_eraseIdx_drop (fun e2 => e2.regId == r)
    (s.arrays.getD aid []) i e tail hd
  simp only [beq_iff_eq] at hcp
  rw [removeAt_eq, cnt_core_mk]
  unfold cnt
  omega

theorem cnt_pos_of_drop (aid i : Nat) (s : Core) (e : ListenerItem)
    (tail : List ListenerItem)
    (hd : (s.arrays.getD aid []).drop i = e :: tail) :
    1 ≤ cnt e.regId s := by
  have he : e ∈ s.arrays.getD aid [] :=
    List.mem_of_mem_drop (hd ▸ List.mem_cons_self e tail)
  have h1 : 0 < (s.arrays.getD aid []).countP (fun e2 => e2.regId == e.regId) :=
    List.countP_pos_iff.mpr ⟨e, he, by simp⟩
  have h2 := countP_getD_le_sum (fun e2 => e2.regId == e.regId) s.arrays aid
  unfold cnt
  omega

/- ### The interpreter invariant -/

theorem onceCallCount_append (r : Nat) (l1 l2 : List Call) :
    onceCallCount r (l1 ++ l2) = onceCallCount r l1 + onceCallCount r l2 :=
  List.countP_append _ _ _

theorem onceCallCount_nil (r : Nat) : onceCallCount r [] = 0 := rfl

theorem onceCallCount_zero_of_noCall (r : Nat) (log : List Call)
    (h : noCallOf r log) : onceCallCount r log = 0 := by
  unfold onceCallCount
  apply List.countP_eq_zero.mpr
  intro c hc
  have hne := h c hc
  simp [hne]

theorem Q_triv (s : Core) : Q s s [] := by
  intro hInv
  refine ⟨hInv, Nat.le_refl _, ?_, ?_⟩
  · intro r _ h0
    exact ⟨h0, fun c hc => absurd hc (List.not_mem_nil c)⟩
  · intro r
    exact ⟨by simp [onceCallCount], fun h => absurd rfl h⟩

theorem Q_comp (s s1 s2 : Core) (l1 l2 : List Call)
    (h1 : Q s s1 l1) (h2 : Q s1 s2 l2) : Q s s2 (l1 ++ l2) := by
  intro hInv
  obtain ⟨hInv1, hm1, h3a, h4a⟩ := h1 hInv
  obtain ⟨hInv2, hm2, h3b, h4b⟩ := h2 hInv1
  refine ⟨hInv2, Nat.le_trans hm1 hm2, ?_, ?_⟩
  · intro r hr h0
    obtain ⟨hc1, hn1⟩ := h3a r hr h0
    obtain ⟨hc2, hn2⟩ := h3b r (Nat.lt_of_lt_of_le hr hm1) hc1
    refine ⟨hc2, ?_⟩
    intro c hc
    rcases List.mem_append.mp hc with h | h
    · exact hn1 c h
    · exact hn2 c h
  · intro r
    rw [onceCallCount_append]
    rcases Nat.eq_zero_or_pos (onceCallCount r l1) with hz | hp
    · obtain ⟨ha, hb⟩ := h4b r
      rw [hz]
      refine ⟨by omega, ?_⟩
      intro hne
      exact hb (by omega)
    · obtain ⟨ha1, hb1⟩ := h4a r
      obtain ⟨hc0, hrlt⟩ := hb1 (by omega)
      obtain ⟨hc2, hnc2⟩ := h3b r hrlt hc0
      have hz2 : onceCallCount r l2 = 0 := onceCallCount_zero_of_noCall r l2 hnc2
      refine ⟨by omega, ?_⟩
      intro _
      exact ⟨hc2, Nat.lt_of_lt_of_le hrlt hm2⟩

theorem Q_addListener (n : String) (l : Nat) (sc : Option Nat) (b : Bool)
    (s : Core) : Q s (addListener n l sc b s) [] := by
  intro hInv
  have hle := cnt_addListener_le n l sc b s
  have hnr := nextReg_addListener n l sc b s
  refine ⟨⟨?_, ?_⟩, by omega, ?_, ?_⟩
  · intro r
    by_cases hr : s.nextReg = r
    · have h0 : cnt r s = 0 := by
        by_contra hne
        have := hInv.2 r hne
        omega
      have := hle r
      rw [if_pos hr] at this
      omega
    · have h1 := hle r
      rw [if_neg hr] at h1
      have := hInv.1 r
      omega
  · intro r hne
    rw [hnr]
    by_cases hr : s.nextReg = r
    · omega
    · have h1 := hle r
      rw [if_neg hr] at h1
      have := hInv.2 r (by omega)
      omega
  · intro r hr h0
    have hner : s.nextReg ≠ r := by omega
    have h1 := hle r
    rw [if_neg hner] at h1
    exact ⟨by omega, fun c hc => absurd hc (List.not_mem_nil c)⟩
  · intro r
    exact ⟨by simp [onceCallCount], fun h => absurd rfl h⟩

theorem Q_off (n : String) (l : Nat) (sc : Option Nat) (s : Core) :
    Q s (off n l sc s) [] := by
  intro hInv
  have hle := cnt_off_le n l sc s
  have hnr := nextReg_off n l sc s
  refine ⟨⟨?_, ?_⟩, by omega, ?_, ?_⟩
  · intro r
    have := hle r
    have := hInv.1 r
    omega
  · intro r hne
    rw [hnr]
    exact hInv.2 r (by have := hle r; omega)
  · intro r _ h0
    exact ⟨by have := hle r; omega, fun c hc => absurd hc (List.not_mem_nil c)⟩
  · intro r
    exact ⟨by simp [onceCallCount], fun h => absurd rfl h⟩

theorem Q_removeAll (s : Core) : Q s (removeAllListeners s) [] := by
  intro hInv
  have hc : ∀ r, cnt r (removeAllListeners s) = cnt r s := fun r => rfl
  have hnr : (removeAllListeners s).nextReg = s.nextReg := rfl
  refine ⟨⟨?_, ?_⟩, by omega, ?_, ?_⟩
  · intro r
    rw [hc r]
    exact hInv.1 r
  · intro r hne
    rw [hnr]
    exact hInv.2 r (by rw [← hc r]; exact hne)
  · intro r _ h0
    exact ⟨by rw [hc r]; exact h0, fun c hc2 => absurd hc2 (List.not_mem_nil c)⟩
  · intro r
    exact ⟨by simp [onceCallCount], fun h => absurd rfl h⟩

theorem Q_once_step (aid i : Nat) (s : Core) (e : ListenerItem)
    (tail : List ListenerItem) (args : List Nat)
    (hd : (s.arrays.getD aid []).drop i = e :: tail) :
    Q s (removeAt aid i s) [⟨e.regId, e.listener, e.scope, args, true⟩] := by
  intro hInv
  have hkey := cnt_removeAt aid i s e tail hd
  have hpos := cnt_pos_of_drop aid i s e tail hd
  have hnr : (removeAt aid i s).nextReg = s.nextReg := rfl
  have hcnt0 : cnt e.regId (removeAt aid i s) = 0 := by
    have h1 := hkey e.regId
    rw [if_pos rfl] at h1
    have h2 := hInv.1 e.regId
    omega
  refine ⟨⟨?_, ?_⟩, by omega, ?_, ?_⟩
  · intro r
    have h1 := hkey r
    have := hInv.1 r
    omega
  · intro r hne
    rw [hnr]
    apply hInv.2 r
    have := hkey r
    omega
  · intro r hr h0
    have hner : e.regId ≠ r := by
      intro hh
      rw [hh] at hpos
      omega
    refine ⟨?_, ?_⟩
    · have h1 := hkey r
      rw [if_neg hner] at h1
      omega
    · intro c hc
      rw [List.mem_singleton] at hc
      rw [hc]
      exact hner
  · intro r
    by_cases hr : e.regId = r
    · have hone : onceCallCount r [⟨e.regId, e.listener, e.scope, args, true⟩] = 1 := by
        simp [onceCallCount, List.countP_cons, hr]
      rw [hone]
      refine ⟨by omega, ?_⟩
      intro _
      have hcnts : cnt r s ≠ 0 := by
        have h1 := hkey r
        rw [if_pos hr] at h1
        omega
      have hlt : r < s.nextReg := hInv.2 r hcnts
      refine ⟨by rw [← hr]; exact hcnt0, ?_⟩
      rw [hnr]
      exact hlt
    · have hzero : onceCallCount r [⟨e.regId, e.listener, e.scope, args, true⟩] = 0 := by
        simp [onceCallCount, List.countP_cons, hr]
      rw [hzero]
      exact ⟨by omega, fun h => absurd rfl h⟩

theorem Q_plain_step (aid i : Nat) (s : Core) (e : ListenerItem)
    (tail : List ListenerItem) (args : List Nat)
    (hd : (s.arrays.getD aid []).drop i = e :: tail) :
    Q s s [⟨e.regId, e.listener, e.scope, args, false⟩] := by
  intro hInv
  have hpos := cnt_pos_of_drop aid i s e tail hd
  refine ⟨hInv, Nat.le_refl _, ?_, ?_⟩
  · intro r hr h0
    have hner : e.regId ≠ r := by
      intro hh
      rw [hh] at hpos
      omega
    refine ⟨h0, ?_⟩
    intro c hc
    rw [List.mem_singleton] at hc
    rw [hc]
    exact hner
  · intro r
    have hzero : onceCallCount r [⟨e.regId, e.listener, e.scope, args, false⟩] = 0 := by
      simp [onceCallCount, List.countP_cons]
    rw [hzero]
    exact ⟨by omega, fun h => absurd rfl h⟩

theorem mainInv (beh : Nat → List Action) :
    ∀ fuel : Nat,
    (∀ (s : Core) (acts : List Action),
      Q s (runActions beh fuel s acts).1 (runActions beh fuel s acts).2)
    ∧ (∀ (s : Core) (a : Action),
      Q s (runAction beh fuel s a).1 (runAction beh fuel s a).2)
    ∧ (∀ (aid : Nat) (args : List Nat) (i : Nat) (s : Core),
      Q s (emitLoop beh fuel aid args i s).1 (emitLoop beh fuel aid args i s).2) := by
  intro fuel
  induction fuel using Nat.strong_induction_on with
  | _ fuel ih =>
    refine ⟨?_, ?_, ?_⟩
    · intro s acts
      cases acts with
      | nil =>
        simp only [runActions]
        exact Q_triv s
      | cons a rest =>
        rcases fuel with _ | f
        · simp only [runActions]
          exact Q_triv s
        · simp only [runActions]
          rw [dif_neg (by omega : ¬(f + 1 = 0))]
          simp only [Nat.add_sub_cancel]
          exact Q_comp s _ _ _ _ ((ih f (by omega)).2.1 s a)
            ((ih f (by omega)).1 (runAction beh f s a).1 rest)
    · intro s a
      cases a with
      | act_on n l sc =>
        simp only [runAction]
        exact Q_addListener n l sc false s
      | act_once n l sc =>
        simp only [runAction]
        exact Q_addListener n l sc true s
      | act_off n l sc =>
        simp only [runAction]
        exact Q_off n l sc s
      | act_removeAll =>
        simp only [runAction]
        exact Q_removeAll s
      | act_emit n args =>
        simp only [runAction]
        cases h : tableGet s.table n with
        | none =>
          simp only [h]
          exact Q_triv s
        | some aid =>
          simp only [h]
          rcases fuel with _ | f
          · exact Q_triv s
          · rw [dif_neg (by omega : ¬(f + 1 = 0))]
            simp only [Nat.add_sub_cancel]
            exact (ih f (by omega)).2.2 aid args 0 s
    · intro aid args i s
      cases hd : (s.arrays.getD aid []).drop i with
      | nil =>
        rw [emitLoop, hd]
        exact Q_triv s
      | cons e tail =>
        rcases fuel with _ | f
        · rw [emitLoop, hd]
          exact Q_triv s
        · rw [emitLoop, hd]
          simp only [dif_neg (show ¬(f + 1 = 0) from by omega), Nat.add_sub_cancel]
          cases ho : e.once with
          | true =>
            simp only [eq_self_iff_true, if_true]
            exact Q_comp s _ _ _ _ (Q_once_step aid i s e tail args hd)
              (Q_comp _ _ _ _ _
                ((ih f (by omega)).1 (removeAt aid i s) (beh e.listener))
                ((ih f (by omega)).2.2 aid args i
                  (runActions beh f (removeAt aid i s) (beh e.listener)).1))
          | false =>
            simp only [Bool.false_eq_true, if_false]
            exact Q_comp s _ _ _ _ (Q_plain_step aid i s e tail args hd)
              (Q_comp _ _ _ _ _
                ((ih f (by omega)).1 s (beh e.listener))
                ((ih f (by omega)).2.2 aid args (i + 1)
                  (runActions beh f s (beh e.listener)).1))

theorem Inv_init : Inv initCore := by
  constructor
  · intro r
    exact Nat.zero_le 1
  · intro r h
    exact absurd rfl h

/-- C2: a `fireOnce` registration can never be invoked twice: for every
program of emitter calls and every assignment of (possibly re-entrant,
self-re-registering, re-emitting) behaviours to listener callbacks, each
registration — identified by the ghost tag its `push` created — is fired
as a `fireOnce` entry at most once over the whole run, and once it has
fired it is gone from the listener table for good (it is spliced out of
the sequence strictly before its callback runs, so even a re-entrant
`emit` of the same event during that callback cannot observe or
re-trigger it; a callback that re-registers itself creates a new
registration with a fresh tag). -/
theorem c2_fireOnce_at_most_once (beh : Nat → List Action) (fuel : Nat)
    (prog : List Action) (r : Nat) :
    onceCallCount r (runActions beh fuel initCore prog).2 ≤ 1
    ∧ (onceCallCount r (runActions beh fuel initCore prog).2 ≠ 0 →
        cnt r (runActions beh fuel initCore prog).1 = 0) := by
  have hQ := (mainInv beh fuel).1 initCore prog Inv_init
  exact ⟨(hQ.2.2.2 r).1, fun h => ((hQ.2.2.2 r).2 h).1⟩

end EventEmitter
